import Mathlib

/-!
Shallow embedding of pymatgen's phase-diagram maker
(src/pymatgen/phasediagram/pdmaker.py) and proofs of the spec claims.

Machine reals are modelled by rationals; `numpy` determinants, matrix
inverses and subset enumeration are modelled by executable Lean functions
with the same mathematical meaning where the source can execute them, and
raised exceptions (KeyError in the formation-energy loop, NameError from
the module's missing `itertools` import) are modelled by `Option` with
`none` for the raise.  The `Composition` value type, `GrandPotPDEntry` and
`TransformedPDEntry` live outside src/ and are modelled from the spec's
interface description (section 3 and 4 of the spec); such definitions
carry a doc comment saying so.
-/

namespace Pdmaker

/-- Elements are opaque, totally ordered identities; we use atomic numbers. -/
abbrev Element := Nat

/-- Modelled from the spec: the `Composition` value type (pymatgen.core,
not under src/) is a mapping element to nonnegative count, kept here as an
association list in insertion order. -/
structure Composition where
  comps : List (Element × ℚ)
deriving DecidableEq, Repr

/-- First value stored under a key in an association list (Python dict lookup). -/
def lookupKey {β : Type} : List (Element × β) → Element → Option β
  | [], _ => none
  | (k, v) :: rest, el => if k = el then some v else lookupKey rest el

/-- Membership of a key (Python `el in dict`). -/
def hasKey {β : Type} (l : List (Element × β)) (el : Element) : Bool :=
  (lookupKey l el).isSome

/-- Modelled from the spec: `comp[el]`, the amount of an element (0 when absent). -/
def Composition.get (c : Composition) (el : Element) : ℚ :=
  (lookupKey c.comps el).getD 0

/-- Modelled from the spec: the elements appearing in a composition. -/
def Composition.elements (c : Composition) : List Element :=
  c.comps.map Prod.fst

/-- Modelled from the spec: total atom count of a composition. -/
def Composition.num_atoms (c : Composition) : ℚ :=
  (c.comps.map Prod.snd).sum

/-- Modelled from the spec: `len(composition)`, the number of elements present. -/
def Composition.card (c : Composition) : ℕ :=
  c.comps.length

/-- Modelled from the spec: a composition is elemental when it has exactly one
element. -/
def Composition.is_element (c : Composition) : Bool :=
  c.comps.length == 1

/-- Modelled from the spec: `Composition.amount_tolerance`, the 1e-8 guard
used when scanning a pure composition. -/
def amount_tolerance : ℚ := 1 / 10 ^ 8

/-- Modelled from the spec: atomic fraction of an element, amount divided by
total atom count. -/
def Composition.get_atomic_fraction (c : Composition) (el : Element) : ℚ :=
  c.get el / c.num_atoms

/-- An input entry: a composition plus a total energy (PDEntry interface of
the spec's data model). -/
structure PDEntry where
  composition : Composition
  energy : ℚ
deriving DecidableEq, Repr

instance : Inhabited PDEntry := ⟨⟨⟨[]⟩, 0⟩⟩

/-- Modelled from the spec: `energy_per_atom = energy / total atom count`. -/
def PDEntry.energy_per_atom (e : PDEntry) : ℚ :=
  e.energy / e.composition.num_atoms

/-- The source's `entry.is_element`, delegated to the composition. -/
def PDEntry.is_element (e : PDEntry) : Bool :=
  e.composition.is_element

/-- The `for el in comp.elements: if comp[el] > amount_tolerance: break` loop
of `_create_convhull_data`: the first element with amount above the
tolerance, or else the last element scanned. -/
def breakEl (c : Composition) : Element :=
  ((c.elements).find? (fun el => decide (amount_tolerance < c.get el))).getD
    ((c.elements).getLast?.getD 0)

/-- Replace the value stored under a key (Python dict assignment on an
existing key). -/
def setRef : List (Element × PDEntry) → Element → PDEntry →
    List (Element × PDEntry)
  | [], _, _ => []
  | (k, v) :: rest, el, e =>
    (if k = el then (el, e) else (k, v)) :: setRef rest el e

/-- One iteration of the elemental-reference selection loop in
`_create_convhull_data` (lines 233-242 of pdmaker.py). -/
def elRefsStep (refs : List (Element × PDEntry)) (entry : PDEntry) :
    List (Element × PDEntry) :=
  if entry.composition.is_element then
    match lookupKey refs (breakEl entry.composition) with
    | none => refs ++ [(breakEl entry.composition, entry)]
    | some cur =>
      if entry.energy_per_atom < cur.energy_per_atom then
        setRef refs (breakEl entry.composition) entry
      else refs
  else refs

/-- The source's `self._el_refs`: elemental references selected from all entries. -/
def elRefs (entries : List PDEntry) : List (Element × PDEntry) :=
  entries.foldl elRefsStep []

/-- The constant `FORMATION_ENERGY_TOLERANCE = 1e-11`. -/
def FORMATION_ENERGY_TOLERANCE : ℚ := 1 / 10 ^ 11

/-- The list of `comp[el] * el_refs[el].energy_per_atom` terms of
`get_form_energy`; `none` models the KeyError raised when a reference is
missing. -/
def refTerms (refs : List (Element × PDEntry)) (c : Composition) :
    List Element → Option (List ℚ)
  | [] => some []
  | el :: rest =>
    match lookupKey refs el with
    | none => none
    | some r =>
      match refTerms refs c rest with
      | none => none
      | some ts => some (c.get el * r.energy_per_atom :: ts)

/-- The source's `PhaseDiagram.get_form_energy`: un-normalized formation energy from the
elemental references; `none` models the raised KeyError. -/
def get_form_energy (refs : List (Element × PDEntry)) (e : PDEntry) : Option ℚ :=
  (refTerms refs e.composition e.composition.elements).map
    (fun ts => e.energy - ts.sum)

/-- The formation-energy filtering loop of `_create_convhull_data`
(lines 244-249): keep entries with formation energy at most the negated
tolerance; `none` when any formation energy computation raises. -/
def keptEntries (refs : List (Element × PDEntry)) :
    List PDEntry → Option (List PDEntry)
  | [] => some []
  | e :: rest =>
    match get_form_energy refs e with
    | none => none
    | some fe =>
      match keptEntries refs rest with
      | none => none
      | some l =>
        some (if fe ≤ -FORMATION_ENERGY_TOLERANCE then e :: l else l)

/-- One row of `_process_entries_qhulldata`: atomic fractions of
elements[1..dim-1] followed by the energy per atom. -/
def qhullRow (els : List Element) (e : PDEntry) : List ℚ :=
  (els.drop 1).map (fun el => e.composition.get_atomic_fraction el) ++
    [e.energy_per_atom]

/-- Laplace expansion along the first row, with an explicit fuel so that the
kernel can evaluate it (fuel = number of rows suffices). -/
def detAux : ℕ → List (List ℚ) → ℚ
  | _, [] => 1
  | 0, _ :: _ => 1
  | n + 1, r :: rs =>
    (List.range r.length).foldl
      (fun acc j =>
        acc + (-1) ^ j * r.getD j 0 * detAux n (rs.map (fun row => row.eraseIdx j)))
      0

/-- Determinant of a square rational matrix given as a list of rows
(models `np.linalg.det`). -/
def detQ (m : List (List ℚ)) : ℚ := detAux m.length m

/-- The facet matrix of `_make_phasediagram` (lines 277-283): the facet's
qhull rows with entry `dim - 1` of each row forced to 1. -/
def facetMatrix (data : List (List ℚ)) (dim : ℕ) (facet : List ℕ) :
    List (List ℚ) :=
  facet.map (fun v => (data.getD v []).set (dim - 1) 1)

/-- The retention test of `_make_phasediagram` (line 286): absolute
determinant above 1e-8 and not an all-elemental facet. -/
def facetKeep (data : List (List ℚ)) (qentries : List PDEntry) (dim : ℕ)
    (facet : List ℕ) : Bool :=
  decide ((1 : ℚ) / 10 ^ 8 < |detQ (facetMatrix data dim facet)|) &&
    !(facet.all (fun v => (qentries.getD v default).composition.card ≤ 1))

/-- The phase diagram artifact (the attributes set by the constructor). -/
structure PhaseDiagram where
  elements : List Element
  all_entries : List PDEntry
  el_refs : List (Element × PDEntry)
  qhull_entries : List PDEntry
  qhull_data : List (List ℚ)
  facets : List (List ℕ)
  stable_entries : List PDEntry
deriving DecidableEq, Repr

/-- The source's `PhaseDiagram.unstable_entries`: all entries not in the stable set. -/
def PhaseDiagram.unstable_entries (pd : PhaseDiagram) : List PDEntry :=
  pd.all_entries.filter (fun e => decide (e ∉ pd.stable_entries))

/-- The facet computation of `_make_phasediagram` (lines 262-290): the
single-simplex shortcut when the row count equals the dimension, otherwise
the hull backend followed by the degenerate-facet filter. -/
def pdFacets (hull : List (List ℚ) → List (List ℕ)) (els : List Element)
    (qentries : List PDEntry) : List (List ℕ) :=
  if (qentries.map (qhullRow els)).length = els.length then
    [List.range els.length]
  else
    (hull (qentries.map (qhullRow els))).filter
      (facetKeep (qentries.map (qhullRow els)) qentries els.length)

/-- The stable-entry resolution of `_make_phasediagram` (lines 292-295):
the entries at the vertices of the surviving facets. -/
def pdStable (hull : List (List ℚ) → List (List ℕ)) (els : List Element)
    (qentries : List PDEntry) : List PDEntry :=
  (pdFacets hull els qentries).flatMap
    (fun f => f.map (fun v => qentries.getD v default))

/-- The pure assembly of `_make_phasediagram` once the formation-energy
filter has succeeded.  The hull provider (scipy Delaunay or external
qconvex) is a parameter: a function from the data rows to facet index
lists. -/
def assemblePD (hull : List (List ℚ) → List (List ℕ)) (els : List Element)
    (entries : List PDEntry) (refs : List (Element × PDEntry))
    (kept : List PDEntry) : PhaseDiagram :=
  { elements := els
    all_entries := entries
    el_refs := refs
    qhull_entries := kept ++ refs.map Prod.snd
    qhull_data := (kept ++ refs.map Prod.snd).map (qhullRow els)
    facets := pdFacets hull els (kept ++ refs.map Prod.snd)
    stable_entries := pdStable hull els (kept ++ refs.map Prod.snd) }

/-- The source's `PhaseDiagram.__init__` with an explicit element list: `none` models a
constructor that raises (no object produced). -/
def mkPhaseDiagram (hull : List (List ℚ) → List (List ℕ)) (els : List Element)
    (entries : List PDEntry) : Option PhaseDiagram :=
  match keptEntries (elRefs entries) entries with
  | none => none
  | some kept => some (assemblePD hull els entries (elRefs entries) kept)

/-- The element universe of a list of entries, in order of first appearance
(the `set` built by `map(elements.update, ...)` in the constructors). -/
def elementsOf (entries : List PDEntry) : List Element :=
  (entries.flatMap (fun e => e.composition.elements)).dedup

/-- Modelled from the spec: `GrandPotPDEntry` (pymatgen.phasediagram.entries,
not under src/).  New energy = original energy minus the sum over open
elements of amount times chemical potential; new composition = original
composition restricted to non-open elements. -/
def grandPotEntry (chempots : List (Element × ℚ)) (e : PDEntry) : PDEntry :=
  { composition := ⟨e.composition.comps.filter (fun p => !(hasKey chempots p.1))⟩
    energy :=
      e.energy -
        chempots.foldl (fun acc p => acc + e.composition.get p.1 * p.2) 0 }

/-- The entry filtering-and-wrapping loop of
`GrandPotentialPhaseDiagram.__init__` (lines 354-357). -/
def grandPotEntries (chempots : List (Element × ℚ)) :
    List PDEntry → List PDEntry
  | [] => []
  | e :: rest =>
    if e.is_element && hasKey chempots (e.composition.elements.headD 0) then
      grandPotEntries chempots rest
    else grandPotEntry chempots e :: grandPotEntries chempots rest

/-- The source's `GrandPotentialPhaseDiagram.__init__`: drop pure open-element entries,
wrap the rest, restrict and sort the element basis, then delegate to the
base construction. -/
def mkGrandPotentialPhaseDiagram (hull : List (List ℚ) → List (List ℕ))
    (entries : List PDEntry) (chempots : List (Element × ℚ))
    (els? : Option (List Element)) : Option PhaseDiagram :=
  let elements := match els? with
    | none => elementsOf entries
    | some l => l
  let allentries := grandPotEntries chempots entries
  let filteredels := elements.filter (fun el => !(hasKey chempots el))
  mkPhaseDiagram hull (List.insertionSort (· ≤ ·) filteredels) allentries

/-- Python's `itertools.combinations`: all length-r sublists, in the order the
Python iterator yields them. -/
def combos {α : Type} : ℕ → List α → List (List α)
  | 0, _ => [[]]
  | _ + 1, [] => []
  | r + 1, x :: xs => (combos r xs).map (fun s => x :: s) ++ combos (r + 1) xs

/-- Row of atomic fractions over a basis (`get_comp_matrix_from_comp`). -/
def compRow (els : List Element) (c : Composition) : List ℚ :=
  els.map (fun el => c.get_atomic_fraction el)

/-- Row normalization of `get_comp_matrix_from_comp`: divide a row by its sum. -/
def normalizeRow (r : List ℚ) : List ℚ :=
  r.map (fun x => x / r.sum)

/-- The source's `get_comp_matrix_from_comp`. -/
def get_comp_matrix_from_comp (comps : List Composition) (els : List Element)
    (normalize_row : Bool) : List (List ℚ) :=
  let m := comps.map (compRow els)
  if normalize_row then m.map normalizeRow else m

/-- The source's `get_comp_matrix`. -/
def get_comp_matrix (entries : List PDEntry) (els : List Element)
    (normalize_row : Bool) : List (List ℚ) :=
  get_comp_matrix_from_comp (entries.map (fun e => e.composition)) els normalize_row

/-- Modelled from the spec: the coplanarity verdict of section 4.8 step 2 -
every combination of `min(|subset|, |entries|)` normalized composition
rows is singular (absolute determinant at most 1e-5, the threshold at line
414).  The source's own `is_coplanar` (lines 411-416) can never produce a
verdict: its first statement evaluates `itertools.combinations`, a name
this module never imports, and raises NameError; even under a repaired
import, `np.linalg.det` raises LinAlgError on the non-square submatrices
built whenever there are fewer entries than subset elements. -/
def spec_is_coplanar (entries : List PDEntry) (els : List Element) : Bool :=
  let m := get_comp_matrix entries els true
  (combos (min els.length entries.length) m).all
    (fun sub => decide (|detQ sub| ≤ (1 : ℚ) / 10 ^ 5))

/-- The source's `get_non_coplanar_element_set` as executed (lines
419-426).  The size loop `for i in xrange(len(elements), 1, -1)` is empty
when the element universe has fewer than two elements, so the function
falls through and returns Python None (modelled `some none`); otherwise
the first iteration evaluates `itertools.combinations` at line 423, a name
this module never imports, and raises NameError (modelled `none`), so no
subset is ever returned. -/
def get_non_coplanar_element_set (entries : List PDEntry) :
    Option (Option (List Element)) :=
  if 2 ≤ (elementsOf entries).length then none else some none

/-- Transpose of a rational matrix given as rows (square use only, as in
`get_transformed_entries`). -/
def transposeQ (m : List (List ℚ)) : List (List ℚ) :=
  (List.range (m.headD []).length).map (fun j => m.map (fun r => r.getD j 0))

/-- Dot product (`np.dot` / elementwise product then sum on equal-length
vectors). -/
def dotQ (a b : List ℚ) : ℚ :=
  (a.zip b).foldl (fun acc p => acc + p.1 * p.2) 0

/-- Matrix-vector product. -/
def matVec (m : List (List ℚ)) (v : List ℚ) : List ℚ :=
  m.map (fun r => dotQ r v)

/-- A minor: delete row i and column j. -/
def minorQ (m : List (List ℚ)) (i j : ℕ) : List (List ℚ) :=
  (m.eraseIdx i).map (fun row => row.eraseIdx j)

/-- Matrix inverse by the adjugate formula (models `np.linalg.inv` away from
the singular case, where numpy raises instead). -/
def matInv (m : List (List ℚ)) : List (List ℚ) :=
  let d := detQ m
  (List.range m.length).map (fun i =>
    (List.range m.length).map (fun j =>
      (-1) ^ (i + j) * detQ (minorQ m j i) / d))

/-- Python's `max` of a list of floats (well defined on nonempty input). -/
def maxQ (l : List ℚ) : ℚ :=
  l.foldl max (l.headD 0)

/-- Python's `list(col).index(max(col))`: index of the first occurrence of the
maximum. -/
def maxIndex (l : List ℚ) : ℕ :=
  l.findIdx (fun x => x == maxQ l)

/-- Column i of a row-major matrix. -/
def columnQ (m : List (List ℚ)) (i : ℕ) : List ℚ :=
  m.map (fun r => r.getD i 0)

/-- Round-half-to-even to an integer (`np.around` semantics). -/
def roundHalfEven (x : ℚ) : ℤ :=
  let f := Int.floor x
  if x - f < 1 / 2 then f
  else if 1 / 2 < x - f then f + 1
  else if f % 2 = 0 then f else f + 1

/-- Numpy's `np.around(x, 5)`. -/
def around5 (x : ℚ) : ℚ :=
  (roundHalfEven (x * 10 ^ 5) : ℚ) / 10 ^ 5

/-- Modelled from the spec: `TransformedPDEntry` (outside src/) wraps an
original entry with a synthetic composition over pseudo-elements and a
re-scaled energy. -/
structure TransformedPDEntry where
  composition : Composition
  energy : ℚ
  original : PDEntry
deriving DecidableEq, Repr

/-- The source's `get_transformed_entries` (lines 429-448): basis rows are the maximal
fraction entries per axis, but the energies list is indexed by the loop
index `i`, exactly as the source does. -/
def get_transformed_entries (entries : List PDEntry) (els : List Element) :
    List TransformedPDEntry :=
  let cm := get_comp_matrix entries els true
  let newmat := (List.range els.length).map
    (fun i => cm.getD (maxIndex (columnQ cm i)) [])
  let energies := (List.range els.length).map
    (fun i => (entries.getD i default).energy_per_atom)
  let invm := matInv (transposeQ newmat)
  (List.range entries.length).map (fun i =>
    let lincomp := (matVec invm (cm.getD i [])).map around5
    let comp : Composition :=
      ⟨(List.range els.length).map (fun j => (j + 1, lincomp.getD j 0))⟩
    { composition := comp
      energy := (entries.getD i default).energy_per_atom - dotQ lincomp energies
      original := entries.getD i default })

/-- The energies the spec prescribes for the compound transform: for each
chosen axis, the energy per atom of the basis entry picked for that axis
(the source entry of maximal fraction along the axis), dotted with the new
linear coordinates.  Stated from the spec's words (section 4.8) for
comparison against `get_transformed_entries`. -/
def spec_transformed_energies (entries : List PDEntry) (els : List Element) :
    List ℚ :=
  let cm := get_comp_matrix entries els true
  let newmat := (List.range els.length).map
    (fun i => cm.getD (maxIndex (columnQ cm i)) [])
  let energies := (List.range els.length).map
    (fun i => (entries.getD (maxIndex (columnQ cm i)) default).energy_per_atom)
  let invm := matInv (transposeQ newmat)
  (List.range entries.length).map (fun i =>
    let lincomp := (matVec invm (cm.getD i [])).map around5
    (entries.getD i default).energy_per_atom - dotQ lincomp energies)

/-! ### Helper lemmas: association-list lookups -/

theorem lookupKey_append {β : Type} (a b : List (Element × β)) (el : Element) :
    lookupKey (a ++ b) el = (lookupKey a el).or (lookupKey b el) := by
  induction a with
  | nil => simp [lookupKey]
  | cons p rest ih =>
    obtain ⟨k, v⟩ := p
    by_cases h : k = el
    · simp [lookupKey, h]
    · simp [lookupKey, h, ih]

theorem lookupKey_setRef_self (refs : List (Element × PDEntry)) (el : Element)
    (e : PDEntry) :
    lookupKey (setRef refs el e) el =
      if (lookupKey refs el).isSome then some e else none := by
  induction refs with
  | nil => simp [setRef, lookupKey]
  | cons p rest ih =>
    obtain ⟨k, v⟩ := p
    by_cases h : k = el
    · subst h
      simp only [setRef]
      simp only [if_pos trivial]
      simp [lookupKey]
    · simp only [setRef]
      rw [if_neg h]
      simp [lookupKey, h, ih]

theorem lookupKey_setRef_ne (refs : List (Element × PDEntry)) (k : Element)
    (e : PDEntry) (el : Element) (h : el ≠ k) :
    lookupKey (setRef refs k e) el = lookupKey refs el := by
  induction refs with
  | nil => simp [setRef, lookupKey]
  | cons p rest ih =>
    obtain ⟨k', v⟩ := p
    by_cases hk : k' = k
    · subst hk
      simp only [setRef]
      simp only [if_pos trivial]
      simp [lookupKey, (Ne.symm h : ¬k' = el), ih]
    · simp only [setRef]
      rw [if_neg hk]
      by_cases hel : k' = el
      · subst hel
        simp [lookupKey]
      · simp [lookupKey, hel, ih]

/-! ### Helper lemmas: elemental-reference selection -/

/-- An entry is a pure single-element entry of a given element: its
composition is elemental and the reference-selection loop attributes it to
that element. -/
def isPureOf (el : Element) (e : PDEntry) : Bool :=
  e.composition.is_element && (breakEl e.composition == el)

/-- The pure single-element entries of an element, in input order. -/
def pureEntries (el : Element) (entries : List PDEntry) : List PDEntry :=
  entries.filter (isPureOf el)

/-- The reference kept by the selection loop for one key, as a fold over
the candidates for that key. -/
def pickMin (init : Option PDEntry) (l : List PDEntry) : Option PDEntry :=
  l.foldl
    (fun acc e =>
      match acc with
      | none => some e
      | some c =>
        if e.energy_per_atom < c.energy_per_atom then some e else some c)
    init

theorem elRefsStep_lookup (refs : List (Element × PDEntry)) (e : PDEntry)
    (el : Element) :
    lookupKey (elRefsStep refs e) el =
      if isPureOf el e then
        match lookupKey refs el with
        | none => some e
        | some c =>
          if e.energy_per_atom < c.energy_per_atom then some e else some c
      else lookupKey refs el := by
  by_cases helem : e.composition.is_element
  · by_cases hbrk : breakEl e.composition = el
    · have hpure : isPureOf el e = true := by simp [isPureOf, helem, hbrk]
      rw [elRefsStep, if_pos helem, hbrk]
      cases hl : lookupKey refs el with
      | none => simp [hpure, hl, lookupKey_append, lookupKey]
      | some cur =>
        by_cases hlt : e.energy_per_atom < cur.energy_per_atom
        · simp [hpure, hl, hlt, lookupKey_setRef_self]
        · simp [hpure, hl, hlt]
    · have hpure : isPureOf el e = false := by simp [isPureOf, hbrk]
      rw [elRefsStep, if_pos helem]
      cases hl : lookupKey refs (breakEl e.composition) with
      | none =>
        simp only [hpure, if_false, hl, lookupKey_append]
        cases hl' : lookupKey refs el with
        | none => simp [lookupKey, hbrk]
        | some c => simp
      | some cur =>
        have hne : el ≠ breakEl e.composition := fun h => hbrk h.symm
        by_cases hlt : e.energy_per_atom < cur.energy_per_atom
        · simp [hpure, hl, hlt, lookupKey_setRef_ne refs _ e el hne]
        · simp [hpure, hl, hlt]
  · have hpure : isPureOf el e = false := by simp [isPureOf, helem]
    simp [elRefsStep, helem, hpure]

theorem elRefs_lookup_aux (l : List PDEntry) :
    ∀ (refs : List (Element × PDEntry)) (el : Element),
      lookupKey (l.foldl elRefsStep refs) el =
        pickMin (lookupKey refs el) (l.filter (isPureOf el)) := by
  induction l with
  | nil => intro refs el; rfl
  | cons e rest ih =>
    intro refs el
    rw [List.foldl_cons, ih (elRefsStep refs e) el, elRefsStep_lookup]
    by_cases hpure : isPureOf el e
    · rw [if_pos hpure, List.filter_cons_of_pos hpure]
      cases hl : lookupKey refs el with
      | none => rfl
      | some c => rfl
    · rw [if_neg hpure, List.filter_cons_of_neg (by simpa using hpure)]

/-- The lookup into `elRefs` is the strict-improvement fold over the pure
entries of the key. -/
theorem elRefs_lookup (entries : List PDEntry) (el : Element) :
    lookupKey (elRefs entries) el = pickMin none (pureEntries el entries) := by
  have h := elRefs_lookup_aux entries [] el
  simpa [elRefs, pureEntries, lookupKey] using h

theorem pickMin_some_split (l : List PDEntry) :
    ∀ c : PDEntry,
      ∃ r, pickMin (some c) l = some r ∧
        ((r = c ∧ ∀ e ∈ l, c.energy_per_atom ≤ e.energy_per_atom) ∨
          ∃ l₁ l₂, l = l₁ ++ r :: l₂ ∧
            r.energy_per_atom < c.energy_per_atom ∧
            (∀ e ∈ l₁, r.energy_per_atom < e.energy_per_atom) ∧
            ∀ e ∈ l₂, r.energy_per_atom ≤ e.energy_per_atom) := by
  induction l with
  | nil => intro c; exact ⟨c, rfl, Or.inl ⟨rfl, by simp⟩⟩
  | cons e rest ih =>
    intro c
    by_cases hlt : e.energy_per_atom < c.energy_per_atom
    · obtain ⟨r, hr, hcase⟩ := ih e
      refine ⟨r, ?_, ?_⟩
      · simpa [pickMin, hlt] using hr
      · rcases hcase with ⟨rfl, hall⟩ | ⟨l₁, l₂, hsplit, hre, h₁, h₂⟩
        · exact Or.inr ⟨[], rest, by simp, hlt, by simp, hall⟩
        · exact Or.inr ⟨e :: l₁, l₂, by simp [hsplit], lt_trans hre hlt,
            by
              intro x hx
              rcases List.mem_cons.mp hx with rfl | hx'
              · exact hre
              · exact h₁ x hx',
            h₂⟩
    · obtain ⟨r, hr, hcase⟩ := ih c
      refine ⟨r, ?_, ?_⟩
      · simpa [pickMin, hlt] using hr
      · rcases hcase with ⟨rfl, hall⟩ | ⟨l₁, l₂, hsplit, hre, h₁, h₂⟩
        · refine Or.inl ⟨rfl, ?_⟩
          intro x hx
          rcases List.mem_cons.mp hx with rfl | hx'
          · exact le_of_not_lt hlt
          · exact hall x hx'
        · refine Or.inr ⟨e :: l₁, l₂, by simp [hsplit], hre, ?_, h₂⟩
          intro x hx
          rcases List.mem_cons.mp hx with rfl | hx'
          · exact lt_of_lt_of_le hre (le_of_not_lt hlt)
          · exact h₁ x hx'

/-- The fold over a nonempty candidate list returns the first entry
attaining the minimum energy per atom: strictly larger candidates before
it, no smaller one after it. -/
theorem pickMin_none_split (l : List PDEntry) (hne : l ≠ []) :
    ∃ r, pickMin none l = some r ∧
      ∃ l₁ l₂, l = l₁ ++ r :: l₂ ∧
        (∀ e ∈ l₁, r.energy_per_atom < e.energy_per_atom) ∧
        ∀ e ∈ l₂, r.energy_per_atom ≤ e.energy_per_atom := by
  cases l with
  | nil => exact absurd rfl hne
  | cons e rest =>
    obtain ⟨r, hr, hcase⟩ := pickMin_some_split rest e
    refine ⟨r, by simpa [pickMin] using hr, ?_⟩
    rcases hcase with ⟨rfl, hall⟩ | ⟨l₁, l₂, hsplit, hre, h₁, h₂⟩
    · exact ⟨[], rest, by simp, by simp, hall⟩
    · refine ⟨e :: l₁, l₂, by simp [hsplit], ?_, h₂⟩
      intro x hx
      rcases List.mem_cons.mp hx with rfl | hx'
      · exact hre
      · exact h₁ x hx'

/-! ### Helper lemmas: the formation-energy filter and assembly -/

theorem elRefsStep_snd_mem (refs : List (Element × PDEntry)) (e : PDEntry)
    (p : Element × PDEntry) (hp : p ∈ elRefsStep refs e) :
    p ∈ refs ∨ p.2 = e := by
  unfold elRefsStep at hp
  by_cases helem : e.composition.is_element
  · rw [if_pos helem] at hp
    cases hl : lookupKey refs (breakEl e.composition) with
    | none =>
      simp only [hl] at hp
      rcases List.mem_append.mp hp with h | h
      · exact Or.inl h
      · simp only [List.mem_singleton] at h
        exact Or.inr (by rw [h])
    | some cur =>
      simp only [hl] at hp
      by_cases hlt : e.energy_per_atom < cur.energy_per_atom
      · rw [if_pos hlt] at hp
        clear hl
        induction refs with
        | nil => exact absurd hp (by simp [setRef])
        | cons q rest ih =>
          obtain ⟨k, v⟩ := q
          simp only [setRef] at hp
          rcases List.mem_cons.mp hp with h | h
          · by_cases hk : k = breakEl e.composition
            · rw [if_pos hk] at h
              exact Or.inr (by rw [h])
            · rw [if_neg hk] at h
              exact Or.inl (List.mem_cons.mpr (Or.inl h))
          · rcases ih h with h' | h'
            · exact Or.inl (List.mem_cons.mpr (Or.inr h'))
            · exact Or.inr h'
      · rw [if_neg hlt] at hp
        exact Or.inl hp
  · rw [if_neg helem] at hp
    exact Or.inl hp

theorem elRefs_foldl_snd_mem (l : List PDEntry) :
    ∀ (refs : List (Element × PDEntry)) (p : Element × PDEntry),
      p ∈ l.foldl elRefsStep refs → p ∈ refs ∨ p.2 ∈ l := by
  induction l with
  | nil => intro refs p hp; exact Or.inl hp
  | cons e rest ih =>
    intro refs p hp
    rcases ih (elRefsStep refs e) p hp with h | h
    · rcases elRefsStep_snd_mem refs e p h with h' | h'
      · exact Or.inl h'
      · exact Or.inr (by simp [h'])
    · exact Or.inr (List.mem_cons.mpr (Or.inr h))

/-- Every elemental reference value is one of the input entries. -/
theorem elRefs_snd_mem (entries : List PDEntry) (p : Element × PDEntry)
    (hp : p ∈ elRefs entries) : p.2 ∈ entries := by
  rcases elRefs_foldl_snd_mem entries [] p hp with h | h
  · exact absurd h (List.not_mem_nil p)
  · exact h

/-- Membership in the kept (negative-formation-energy) entries. -/
theorem keptEntries_mem (refs : List (Element × PDEntry)) :
    ∀ (l kept : List PDEntry), keptEntries refs l = some kept →
      ∀ e, e ∈ kept ↔ e ∈ l ∧ ∃ fe, get_form_energy refs e = some fe ∧
        fe ≤ -FORMATION_ENERGY_TOLERANCE := by
  intro l
  induction l with
  | nil =>
    intro kept hk e
    simp only [keptEntries, Option.some.injEq] at hk
    subst hk
    simp
  | cons x rest ih =>
    intro kept hk e
    simp only [keptEntries] at hk
    cases hfe : get_form_energy refs x with
    | none => rw [hfe] at hk; exact absurd hk (by simp)
    | some fex =>
      rw [hfe] at hk
      cases hrest : keptEntries refs rest with
      | none => rw [hrest] at hk; exact absurd hk (by simp)
      | some kr =>
        rw [hrest] at hk
        simp only [Option.some.injEq] at hk
        subst hk
        by_cases hcond : fex ≤ -FORMATION_ENERGY_TOLERANCE
        · rw [if_pos hcond]
          constructor
          · intro hm
            rcases List.mem_cons.mp hm with rfl | hm'
            · exact ⟨List.mem_cons_self _ _, fex, hfe, hcond⟩
            · obtain ⟨hmem, hfe'⟩ := (ih kr hrest e).mp hm'
              exact ⟨List.mem_cons.mpr (Or.inr hmem), hfe'⟩
          · intro ⟨hm, fe, hfe', hle⟩
            rcases List.mem_cons.mp hm with rfl | hm'
            · exact List.mem_cons_self _ _
            · exact List.mem_cons.mpr
                (Or.inr ((ih kr hrest e).mpr ⟨hm', fe, hfe', hle⟩))
        · rw [if_neg hcond]
          constructor
          · intro hm
            obtain ⟨hmem, hfe'⟩ := (ih kr hrest e).mp hm
            exact ⟨List.mem_cons.mpr (Or.inr hmem), hfe'⟩
          · intro ⟨hm, fe, hfe', hle⟩
            rcases List.mem_cons.mp hm with rfl | hm'
            · rw [hfe] at hfe'
              cases hfe'
              exact absurd hle hcond
            · exact (ih kr hrest e).mpr ⟨hm', fe, hfe', hle⟩

/-- If any entry's formation energy raises, the filtering loop raises. -/
theorem keptEntries_none (refs : List (Element × PDEntry)) :
    ∀ (l : List PDEntry) (e : PDEntry), e ∈ l →
      get_form_energy refs e = none → keptEntries refs l = none := by
  intro l
  induction l with
  | nil => intro e he; exact absurd he (List.not_mem_nil e)
  | cons x rest ih =>
    intro e he hfe
    rcases List.mem_cons.mp he with rfl | he'
    · simp only [keptEntries, hfe]
    · simp only [keptEntries, ih e he' hfe]
      cases get_form_energy refs x <;> rfl

/-- A missing reference for any element of the composition makes the
formation-energy computation raise. -/
theorem get_form_energy_none (refs : List (Element × PDEntry)) (e : PDEntry)
    (el : Element) (hel : el ∈ e.composition.elements)
    (hmiss : lookupKey refs el = none) : get_form_energy refs e = none := by
  rw [get_form_energy]
  suffices h : refTerms refs e.composition e.composition.elements = none by
    rw [h]; rfl
  revert hel
  generalize e.composition.elements = els
  induction els with
  | nil => intro h; exact absurd h (List.not_mem_nil el)
  | cons x rest ih =>
    intro hel
    rcases List.mem_cons.mp hel with rfl | hel'
    · simp only [refTerms, hmiss]
    · simp only [refTerms, ih hel']
      cases lookupKey refs x <;> rfl

/-- Destructuring a successful construction. -/
theorem mkPhaseDiagram_some (hull : List (List ℚ) → List (List ℕ))
    (els : List Element) (entries : List PDEntry) (pd : PhaseDiagram)
    (hmk : mkPhaseDiagram hull els entries = some pd) :
    ∃ kept, keptEntries (elRefs entries) entries = some kept ∧
      pd = assemblePD hull els entries (elRefs entries) kept := by
  unfold mkPhaseDiagram at hmk
  cases hk : keptEntries (elRefs entries) entries with
  | none => rw [hk] at hmk; exact absurd hmk (by simp)
  | some kept =>
    rw [hk] at hmk
    simp only [Option.some.injEq] at hmk
    exact ⟨kept, rfl, hmk.symm⟩

theorem getD_mem_of_lt {α : Type} (l : List α) (i : ℕ) (d : α)
    (h : i < l.length) : l.getD i d ∈ l := by
  induction l generalizing i with
  | nil => exact absurd h (by simp)
  | cons x rest ih =>
    cases i with
    | zero => simp
    | succ j =>
      have hj : j < rest.length := by simpa using h
      simpa using Or.inr (ih j hj)

/-- Any vertex of any computed facet indexes into the qhull entries,
provided the hull backend honours its interface contract (facet entries
index the input rows). -/
theorem pdFacets_vertex_lt (hull : List (List ℚ) → List (List ℕ))
    (els : List Element) (qentries : List PDEntry)
    (hhull : ∀ d f, f ∈ hull d → ∀ v ∈ f, v < d.length)
    (f : List ℕ) (hf : f ∈ pdFacets hull els qentries) (v : ℕ) (hv : v ∈ f) :
    v < qentries.length := by
  unfold pdFacets at hf
  by_cases hlen : (qentries.map (qhullRow els)).length = els.length
  · rw [if_pos hlen] at hf
    simp only [List.mem_singleton] at hf
    subst hf
    rw [List.length_map] at hlen
    rw [hlen]
    exact List.mem_range.mp hv
  · rw [if_neg hlen] at hf
    have hf' := (List.mem_filter.mp hf).1
    have hvlt := hhull _ f hf' v hv
    rwa [List.length_map] at hvlt

/-- Stable entries are qhull entries (hull contract as above). -/
theorem pdStable_subset (hull : List (List ℚ) → List (List ℕ))
    (els : List Element) (qentries : List PDEntry)
    (hhull : ∀ d f, f ∈ hull d → ∀ v ∈ f, v < d.length) :
    ∀ e ∈ pdStable hull els qentries, e ∈ qentries := by
  intro e he
  unfold pdStable at he
  rw [List.mem_flatMap] at he
  obtain ⟨f, hf, hef⟩ := he
  rw [List.mem_map] at hef
  obtain ⟨v, hv, rfl⟩ := hef
  exact getD_mem_of_lt _ _ _
    (pdFacets_vertex_lt hull els qentries hhull f hf v hv)

/-! ### Concrete example inputs used by witnesses and counterexamples -/

/-- A pure entry of element 0 with energy per atom -1. -/
def egA : PDEntry := ⟨⟨[(0, 1)]⟩, -1⟩

/-- A pure entry of element 0 with energy per atom 0. -/
def egA0 : PDEntry := ⟨⟨[(0, 1)]⟩, 0⟩

/-- A pure entry of element 0 with two atoms, energy per atom -1. -/
def egA2 : PDEntry := ⟨⟨[(0, 2)]⟩, -2⟩

/-- A pure entry of element 0 with energy per atom -2. -/
def egAm2 : PDEntry := ⟨⟨[(0, 1)]⟩, -2⟩

/-- A pure entry of element 1 with energy per atom -1. -/
def egB : PDEntry := ⟨⟨[(1, 1)]⟩, -1⟩

/-- A pure entry of element 1 with energy per atom -2. -/
def egB2 : PDEntry := ⟨⟨[(1, 1)]⟩, -2⟩

/-- A two-element compound entry (elements 0 and 1), energy per atom -2. -/
def egAB : PDEntry := ⟨⟨[(0, 1), (1, 1)]⟩, -4⟩

/-- A hull backend returning no facets. -/
def hullNone : List (List ℚ) → List (List ℕ) := fun _ => []

/-- A hull backend returning the two 2-vertex facets of a 3-row input. -/
def hullPair : List (List ℚ) → List (List ℕ) := fun _ => [[0, 1], [1, 2]]

/-! ### The claims -/

/-- Claim C2: for every element that occurs in at least one pure
single-element entry of the input, the elemental reference selected for it
is itself such a pure entry and its energy per atom is the minimum energy
per atom over all pure single-element entries of that element. -/
theorem claim_C2 (entries : List PDEntry) (el : Element)
    (h : pureEntries el entries ≠ []) :
    ∃ r, lookupKey (elRefs entries) el = some r ∧
      r ∈ pureEntries el entries ∧
      ∀ e ∈ pureEntries el entries,
        r.energy_per_atom ≤ e.energy_per_atom := by
  obtain ⟨r, hr, l₁, l₂, hsplit, h₁, h₂⟩ := pickMin_none_split _ h
  refine ⟨r, by rw [elRefs_lookup]; exact hr, by rw [hsplit]; simp, ?_⟩
  intro e he
  rw [hsplit] at he
  rcases List.mem_append.mp he with he₁ | he₂
  · exact le_of_lt (h₁ e he₁)
  · rcases List.mem_cons.mp he₂ with rfl | he₂'
    · exact le_refl _
    · exact h₂ e he₂'

/-- Witness for claim C2 at a concrete input: element 0 has two pure
entries with energies per atom -1 and 0; the reference has the minimum. -/
theorem claim_C2_witness :
    pureEntries 0 [egA, egA0] ≠ [] ∧
      ∃ r, lookupKey (elRefs [egA, egA0]) 0 = some r ∧
        r ∈ pureEntries 0 [egA, egA0] ∧
        ∀ e ∈ pureEntries 0 [egA, egA0],
          r.energy_per_atom ≤ e.energy_per_atom :=
  ⟨by with_unfolding_all decide,
    claim_C2 [egA, egA0] 0 (by with_unfolding_all decide)⟩

/-- Claim C10: the stored elemental reference is the first pure entry of
its element attaining the minimal energy per atom: every pure entry before
it in input order is strictly higher, and no later pure entry is strictly
lower (a later candidate replaces only on strict improvement). -/
theorem claim_C10 (entries : List PDEntry) (el : Element) (r : PDEntry)
    (h : lookupKey (elRefs entries) el = some r) :
    ∃ l₁ l₂, pureEntries el entries = l₁ ++ r :: l₂ ∧
      (∀ e ∈ l₁, r.energy_per_atom < e.energy_per_atom) ∧
      ∀ e ∈ l₂, r.energy_per_atom ≤ e.energy_per_atom := by
  rw [elRefs_lookup] at h
  have hne : pureEntries el entries ≠ [] := by
    intro hemp
    rw [hemp] at h
    exact absurd h (by simp [pickMin])
  obtain ⟨r', hr', l₁, l₂, hsplit, h₁, h₂⟩ := pickMin_none_split _ hne
  rw [h] at hr'
  obtain rfl : r = r' := by simpa using hr'
  exact ⟨l₁, l₂, hsplit, h₁, h₂⟩

/-- Witness for claim C10 at a concrete input: two pure entries of element
0 tie at energy per atom -1; the reference is the first of them. -/
theorem claim_C10_witness :
    lookupKey (elRefs [egA2, egA]) 0 = some egA2 ∧
      ∃ l₁ l₂, pureEntries 0 [egA2, egA] = l₁ ++ egA2 :: l₂ ∧
        (∀ e ∈ l₁, egA2.energy_per_atom < e.energy_per_atom) ∧
        ∀ e ∈ l₂, egA2.energy_per_atom ≤ e.energy_per_atom :=
  ⟨by with_unfolding_all decide,
    claim_C10 [egA2, egA] 0 egA2 (by with_unfolding_all decide)⟩

/-- Claim C9: when some input entry's composition contains an element with
no pure single-element entry in the input, construction fails: the
formation-energy computation raises and no phase diagram is produced. -/
theorem claim_C9 (hull : List (List ℚ) → List (List ℕ)) (els : List Element)
    (entries : List PDEntry) (e : PDEntry) (el : Element)
    (he : e ∈ entries) (hel : el ∈ e.composition.elements)
    (hnone : pureEntries el entries = []) :
    mkPhaseDiagram hull els entries = none := by
  have hlook : lookupKey (elRefs entries) el = none := by
    rw [elRefs_lookup, hnone]
    rfl
  have hfe := get_form_energy_none (elRefs entries) e el hel hlook
  unfold mkPhaseDiagram
  rw [keptEntries_none (elRefs entries) entries e he hfe]

/-- Witness for claim C9 at a concrete input: a lone compound entry over
elements 0 and 1 with no elemental references. -/
theorem claim_C9_witness :
    egAB ∈ [egAB] ∧ 0 ∈ egAB.composition.elements ∧
      pureEntries 0 [egAB] = [] ∧
      mkPhaseDiagram hullNone [0, 1] [egAB] = none :=
  ⟨by with_unfolding_all decide, by with_unfolding_all decide,
    by with_unfolding_all decide,
    claim_C9 hullNone [0, 1] [egAB] egAB 0 (by with_unfolding_all decide)
      (by with_unfolding_all decide) (by with_unfolding_all decide)⟩

/-- Claim C1: for every constructed phase diagram (under the hull-backend
interface contract that returned facets index the input rows), the stable
entries are a subset of the qhull entries, the qhull entries are a subset
of all entries, and stable together with unstable partitions all entries:
the union is all entries and the intersection is empty. -/
theorem claim_C1 (hull : List (List ℚ) → List (List ℕ)) (els : List Element)
    (entries : List PDEntry) (pd : PhaseDiagram)
    (hhull : ∀ d f, f ∈ hull d → ∀ v ∈ f, v < d.length)
    (hmk : mkPhaseDiagram hull els entries = some pd) :
    (∀ e ∈ pd.stable_entries, e ∈ pd.qhull_entries) ∧
      (∀ e ∈ pd.qhull_entries, e ∈ pd.all_entries) ∧
      (∀ e, e ∈ pd.all_entries ↔
        (e ∈ pd.stable_entries ∨ e ∈ pd.unstable_entries)) ∧
      ∀ e, ¬(e ∈ pd.stable_entries ∧ e ∈ pd.unstable_entries) := by
  obtain ⟨kept, hkept, rfl⟩ := mkPhaseDiagram_some hull els entries pd hmk
  simp only [assemblePD, PhaseDiagram.unstable_entries]
  have hsub1 := pdStable_subset hull els
    (kept ++ (elRefs entries).map Prod.snd) hhull
  have hsub2 : ∀ e ∈ kept ++ (elRefs entries).map Prod.snd, e ∈ entries := by
    intro e he
    rcases List.mem_append.mp he with h | h
    · exact ((keptEntries_mem (elRefs entries) entries kept hkept e).mp h).1
    · rw [List.mem_map] at h
      obtain ⟨p, hp, rfl⟩ := h
      exact elRefs_snd_mem entries p hp
  refine ⟨hsub1, hsub2, ?_, ?_⟩
  · intro e
    constructor
    · intro he
      by_cases hs : e ∈ pdStable hull els (kept ++ (elRefs entries).map Prod.snd)
      · exact Or.inl hs
      · exact Or.inr (List.mem_filter.mpr ⟨he, decide_eq_true hs⟩)
    · intro h
      rcases h with h | h
      · exact hsub2 e (hsub1 e h)
      · exact (List.mem_filter.mp h).1
  · intro e h
    obtain ⟨h1, h2⟩ := h
    exact (of_decide_eq_true (List.mem_filter.mp h2).2) h1

/-- The phase diagram built from the two pure entries `egA` and `egB2`
with any hull backend (single-simplex shortcut). -/
def pdTwo : PhaseDiagram where
  elements := [0, 1]
  all_entries := [egA, egB2]
  el_refs := [(0, egA), (1, egB2)]
  qhull_entries := [egA, egB2]
  qhull_data := [[0, -1], [1, -2]]
  facets := [[0, 1]]
  stable_entries := [egA, egB2]

/-- Witness for claim C1 at a concrete input with an empty hull backend. -/
theorem claim_C1_witness :
    (∀ d f, f ∈ hullNone d → ∀ v ∈ f, v < d.length) ∧
      mkPhaseDiagram hullNone [0, 1] [egA, egB2] = some pdTwo ∧
      ((∀ e ∈ pdTwo.stable_entries, e ∈ pdTwo.qhull_entries) ∧
        (∀ e ∈ pdTwo.qhull_entries, e ∈ pdTwo.all_entries) ∧
        (∀ e, e ∈ pdTwo.all_entries ↔
          (e ∈ pdTwo.stable_entries ∨ e ∈ pdTwo.unstable_entries)) ∧
        ∀ e, ¬(e ∈ pdTwo.stable_entries ∧ e ∈ pdTwo.unstable_entries)) :=
  ⟨fun d f hf => absurd hf (List.not_mem_nil f),
    by with_unfolding_all decide,
    claim_C1 hullNone [0, 1] [egA, egB2] pdTwo
      (fun d f hf => absurd hf (List.not_mem_nil f))
      (by with_unfolding_all decide)⟩

/-- Claim C4: when the number of qhull data rows equals the number of basis
elements, the facets are the single simplex of all row indices, every
qhull entry is stable, and no hull backend is consulted (the result is the
same for every hull function). -/
theorem claim_C4 (hull hull' : List (List ℚ) → List (List ℕ))
    (els : List Element) (entries : List PDEntry) (pd : PhaseDiagram)
    (hmk : mkPhaseDiagram hull els entries = some pd)
    (hdim : pd.qhull_data.length = els.length) :
    pd.facets = [List.range els.length] ∧
      (∀ e ∈ pd.qhull_entries, e ∈ pd.stable_entries) ∧
      mkPhaseDiagram hull' els entries = some pd := by
  obtain ⟨kept, hkept, rfl⟩ := mkPhaseDiagram_some hull els entries pd hmk
  simp only [assemblePD] at hdim ⊢
  have hfac : ∀ h : List (List ℚ) → List (List ℕ),
      pdFacets h els (kept ++ (elRefs entries).map Prod.snd) =
        [List.range els.length] := by
    intro h
    unfold pdFacets
    rw [if_pos hdim]
  refine ⟨hfac hull, ?_, ?_⟩
  · intro e he
    obtain ⟨i, hi, hgey⟩ := List.getElem_of_mem he
    unfold pdStable
    rw [hfac hull]
    simp only [List.flatMap_cons, List.flatMap_nil, List.append_nil]
    rw [List.mem_map]
    refine ⟨i, ?_, ?_⟩
    · rw [List.mem_range]
      rw [List.length_map] at hdim
      rw [← hdim]
      exact hi
    · rw [List.getD_eq_getElem _ _ hi]
      exact hgey
  · unfold mkPhaseDiagram
    rw [hkept]
    simp only [assemblePD, pdStable, hfac hull, hfac hull']

/-- The phase diagram built from the single pure entry `egA`. -/
def pdMin : PhaseDiagram where
  elements := [0]
  all_entries := [egA]
  el_refs := [(0, egA)]
  qhull_entries := [egA]
  qhull_data := [[-1]]
  facets := [[0]]
  stable_entries := [egA]

/-- Witness for claim C4 at a concrete one-element input: two different
hull backends give the identical diagram. -/
theorem claim_C4_witness :
    mkPhaseDiagram hullNone [0] [egA] = some pdMin ∧
      pdMin.qhull_data.length = [0].length ∧
      (pdMin.facets = [List.range [0].length] ∧
        (∀ e ∈ pdMin.qhull_entries, e ∈ pdMin.stable_entries) ∧
        mkPhaseDiagram hullPair [0] [egA] = some pdMin) :=
  ⟨by with_unfolding_all decide, by with_unfolding_all decide,
    claim_C4 hullNone hullPair [0] [egA] pdMin
      (by with_unfolding_all decide) (by with_unfolding_all decide)⟩

/-- Claim C3: the qhull entries are exactly the input entries whose
per-formula formation energy is at most -1e-11 plus every elemental
reference entry; consequently every qhull entry that is not an elemental
reference has formation energy at most -1e-11. -/
theorem claim_C3 (hull : List (List ℚ) → List (List ℕ)) (els : List Element)
    (entries : List PDEntry) (pd : PhaseDiagram)
    (hmk : mkPhaseDiagram hull els entries = some pd) :
    (∀ e, e ∈ pd.qhull_entries ↔
      ((e ∈ pd.all_entries ∧ ∃ fe, get_form_energy pd.el_refs e = some fe ∧
          fe ≤ -FORMATION_ENERGY_TOLERANCE) ∨
        e ∈ pd.el_refs.map Prod.snd)) ∧
      ∀ e ∈ pd.qhull_entries, e ∉ pd.el_refs.map Prod.snd →
        ∃ fe, get_form_energy pd.el_refs e = some fe ∧
          fe ≤ -FORMATION_ENERGY_TOLERANCE := by
  obtain ⟨kept, hkept, rfl⟩ := mkPhaseDiagram_some hull els entries pd hmk
  simp only [assemblePD]
  have hmem : ∀ e, e ∈ kept ++ (elRefs entries).map Prod.snd ↔
      ((e ∈ entries ∧ ∃ fe, get_form_energy (elRefs entries) e = some fe ∧
          fe ≤ -FORMATION_ENERGY_TOLERANCE) ∨
        e ∈ (elRefs entries).map Prod.snd) := by
    intro e
    rw [List.mem_append]
    constructor
    · intro h
      rcases h with h | h
      · exact Or.inl ((keptEntries_mem (elRefs entries) entries kept hkept e).mp h)
      · exact Or.inr h
    · intro h
      rcases h with h | h
      · exact Or.inl ((keptEntries_mem (elRefs entries) entries kept hkept e).mpr h)
      · exact Or.inr h
  refine ⟨hmem, ?_⟩
  intro e he hnotref
  rcases (hmem e).mp he with h | h
  · exact h.2
  · exact absurd h hnotref

/-- The phase diagram built from `egA`, `egB` and the compound `egAB` with
the two-facet hull backend (filtering branch). -/
def pdThree : PhaseDiagram where
  elements := [0, 1]
  all_entries := [egA, egB, egAB]
  el_refs := [(0, egA), (1, egB)]
  qhull_entries := [egAB, egA, egB]
  qhull_data := [[1/2, -2], [0, -1], [1, -1]]
  facets := [[0, 1]]
  stable_entries := [egAB, egA]

/-- Witness for claim C3 at a concrete input: the compound entry is kept
for its negative formation energy, the two references are force-included. -/
theorem claim_C3_witness :
    mkPhaseDiagram hullPair [0, 1] [egA, egB, egAB] = some pdThree ∧
      ((∀ e, e ∈ pdThree.qhull_entries ↔
        ((e ∈ pdThree.all_entries ∧
            ∃ fe, get_form_energy pdThree.el_refs e = some fe ∧
              fe ≤ -FORMATION_ENERGY_TOLERANCE) ∨
          e ∈ pdThree.el_refs.map Prod.snd)) ∧
        ∀ e ∈ pdThree.qhull_entries, e ∉ pdThree.el_refs.map Prod.snd →
          ∃ fe, get_form_energy pdThree.el_refs e = some fe ∧
            fe ≤ -FORMATION_ENERGY_TOLERANCE) :=
  ⟨by with_unfolding_all decide,
    claim_C3 hullPair [0, 1] [egA, egB, egAB] pdThree
      (by with_unfolding_all decide)⟩

/-- Claim C5 (amended): whenever the construction takes the filtering
branch, i.e. the number of qhull data rows differs from the number of
basis elements, every retained facet is non-degenerate (the facet matrix
with last column forced to 1 has absolute determinant above 1e-8) and has
at least one vertex whose entry has a composition with more than one
element. -/
theorem claim_C5 (hull : List (List ℚ) → List (List ℕ)) (els : List Element)
    (entries : List PDEntry) (pd : PhaseDiagram) (facet : List ℕ)
    (hmk : mkPhaseDiagram hull els entries = some pd)
    (hlen : pd.qhull_data.length ≠ els.length)
    (hf : facet ∈ pd.facets) :
    (1 : ℚ) / 10 ^ 8 < |detQ (facetMatrix pd.qhull_data els.length facet)| ∧
      ∃ v ∈ facet, 1 < (pd.qhull_entries.getD v default).composition.card := by
  obtain ⟨kept, hkept, rfl⟩ := mkPhaseDiagram_some hull els entries pd hmk
  simp only [assemblePD] at hlen hf ⊢
  unfold pdFacets at hf
  rw [if_neg hlen] at hf
  have hkeep := (List.mem_filter.mp hf).2
  unfold facetKeep at hkeep
  rw [Bool.and_eq_true] at hkeep
  obtain ⟨h1, h2⟩ := hkeep
  refine ⟨of_decide_eq_true h1, ?_⟩
  rw [Bool.not_eq_true'] at h2
  rw [List.all_eq_false] at h2
  obtain ⟨v, hv, hvp⟩ := h2
  refine ⟨v, hv, ?_⟩
  have hP : ¬(((kept ++ (elRefs entries).map Prod.snd).getD v
      default).composition.card ≤ 1) := by simpa using hvp
  exact Nat.lt_of_not_le hP

/-- Counterexample for claim C5 as stated: in the single-simplex shortcut
branch no facet filtering happens, so a diagram built from two pure
elemental entries has the facet `[0, 1]` whose vertex entries all have
single-element compositions, contradicting the claim for every constructed
diagram. -/
theorem claim_C5_counterexample :
    mkPhaseDiagram hullNone [0, 1] [egA, egB2] = some pdTwo ∧
      [0, 1] ∈ pdTwo.facets ∧
      pdTwo.qhull_entries.map (fun e => e.composition.card) = [1, 1] ∧
      ¬∃ v ∈ ([0, 1] : List ℕ),
        1 < (pdTwo.qhull_entries.getD v default).composition.card := by
  with_unfolding_all decide

/-- Witness for the amended claim C5 at a concrete filtering-branch input:
three qhull rows over two elements; the surviving facet `[0, 1]` is
non-degenerate and contains the compound vertex. -/
theorem claim_C5_witness :
    mkPhaseDiagram hullPair [0, 1] [egA, egB, egAB] = some pdThree ∧
      pdThree.qhull_data.length ≠ [0, 1].length ∧
      [0, 1] ∈ pdThree.facets ∧
      ((1 : ℚ) / 10 ^ 8 <
          |detQ (facetMatrix pdThree.qhull_data [0, 1].length [0, 1])| ∧
        ∃ v ∈ ([0, 1] : List ℕ),
          1 < (pdThree.qhull_entries.getD v default).composition.card) :=
  ⟨by with_unfolding_all decide, by with_unfolding_all decide,
    by with_unfolding_all decide,
    claim_C5 hullPair [0, 1] [egA, egB, egAB] pdThree [0, 1]
      (by with_unfolding_all decide) (by with_unfolding_all decide)
      (by with_unfolding_all decide)⟩

/-- The entry loop of the grand-potential constructor is the claimed
filter-then-wrap. -/
theorem grandPotEntries_eq (chempots : List (Element × ℚ)) (l : List PDEntry) :
    grandPotEntries chempots l =
      (l.filter (fun e =>
        !(e.is_element &&
          hasKey chempots (e.composition.elements.headD 0)))).map
        (grandPotEntry chempots) := by
  induction l with
  | nil => rfl
  | cons e rest ih =>
    cases hb : e.is_element && hasKey chempots (e.composition.elements.headD 0) with
    | true =>
      simp only [grandPotEntries, List.filter_cons, hb, ih]
      simp
    | false =>
      simp only [grandPotEntries, List.filter_cons, hb, ih]
      simp

/-- Claim C6: the grand-potential construction excludes every input entry
that is a pure instance of an open element, wraps each remaining entry in
a grand-potential entry (in input order), and its element basis is the
explicitly given elements (or the union of the entries' elements when
unspecified) minus the open elements, sorted ascending. -/
theorem claim_C6 (hull : List (List ℚ) → List (List ℕ))
    (entries : List PDEntry) (chempots : List (Element × ℚ))
    (els? : Option (List Element)) (pd : PhaseDiagram)
    (hmk : mkGrandPotentialPhaseDiagram hull entries chempots els? = some pd) :
    pd.all_entries =
        (entries.filter (fun e =>
          !(e.is_element &&
            hasKey chempots (e.composition.elements.headD 0)))).map
          (grandPotEntry chempots) ∧
      List.Sorted (· ≤ ·) pd.elements ∧
      pd.elements.Perm
        ((els?.getD (elementsOf entries)).filter
          (fun el => !(hasKey chempots el))) := by
  cases els? with
  | none =>
    simp only [mkGrandPotentialPhaseDiagram] at hmk
    obtain ⟨kept, hkept, rfl⟩ := mkPhaseDiagram_some _ _ _ _ hmk
    refine ⟨grandPotEntries_eq chempots entries, ?_, ?_⟩
    · exact List.sorted_insertionSort _ _
    · exact List.perm_insertionSort _ _
  | some l =>
    simp only [mkGrandPotentialPhaseDiagram] at hmk
    obtain ⟨kept, hkept, rfl⟩ := mkPhaseDiagram_some _ _ _ _ hmk
    refine ⟨grandPotEntries_eq chempots entries, ?_, ?_⟩
    · exact List.sorted_insertionSort _ _
    · exact List.perm_insertionSort _ _

/-- The grand-potential phase diagram of `egA`, `egB`, `egAB` open on
element 1 with chemical potential -3: the pure entry of element 1 is
dropped and `egAB` wraps to the same value as `egA`. -/
def pdGrand : PhaseDiagram where
  elements := [0]
  all_entries := [egA, egA]
  el_refs := [(0, egA)]
  qhull_entries := [egA]
  qhull_data := [[-1]]
  facets := [[0]]
  stable_entries := [egA]

/-- Witness for claim C6 at a concrete input. -/
theorem claim_C6_witness :
    mkGrandPotentialPhaseDiagram hullNone [egA, egB, egAB] [(1, -3)] none =
        some pdGrand ∧
      (pdGrand.all_entries =
          (([egA, egB, egAB].filter (fun e =>
            !(e.is_element &&
              hasKey [(1, -3)] (e.composition.elements.headD 0))))).map
            (grandPotEntry [(1, -3)]) ∧
        List.Sorted (· ≤ ·) pdGrand.elements ∧
        pdGrand.elements.Perm
          (((none : Option (List Element)).getD
              (elementsOf [egA, egB, egAB])).filter
            (fun el => !(hasKey [(1, -3)] el)))) :=
  ⟨by with_unfolding_all decide,
    claim_C6 hullNone [egA, egB, egAB] [(1, -3)] none pdGrand
      (by with_unfolding_all decide)⟩

/-- Claim C7 (code bug evaluation): the non-coplanar element-set search
cannot perform the claimed iteration.  On any input whose element universe
has at least two elements, the first iteration of the size loop evaluates
`itertools.combinations` - a name the module never imports - and raises
NameError (modelled `none` in the first conjunct); on a one-element
universe the loop body never runs and the function returns None
(`some none`), reporting failure even though the singleton subset is
non-coplanar under the spec's coplanarity verdict, so the claimed descent
to cardinality 1 never happens either. -/
theorem claim_C7_eval :
    get_non_coplanar_element_set [egA, egB] = none ∧
      get_non_coplanar_element_set [egA] = some none ∧
      [0] ∈ combos 1 (elementsOf [egA]) ∧
      spec_is_coplanar [egA] [0] = false := by
  with_unfolding_all decide


/-- Claim C8 (code bug evaluation): with entries `[egB, egAm2]` over the
element basis `[0, 1]`, the basis entry chosen for axis 0 is the entry at
index 1 (maximal fraction), yet the code pairs axis 0 with
`entries[0].energy_per_atom`.  The code's transformed energies are
`[1, -1]`, while the spec's rule (dot product with the chosen basis
entries' energies per atom) gives `[0, 0]`. -/
theorem claim_C8_eval :
    maxIndex (columnQ (get_comp_matrix [egB, egAm2] [0, 1] true) 0) = 1 ∧
      (get_transformed_entries [egB, egAm2] [0, 1]).map
        (fun t => t.energy) = [1, -1] ∧
      spec_transformed_energies [egB, egAm2] [0, 1] = [0, 0] := by
  with_unfolding_all decide

end Pdmaker
